import Mathlib

/-!
Verification development for the personal expense tracker (`src/main.py`).

The program text is shallowly embedded as follows.

* Text is modelled as `Str := List Char`.  A *file* is modelled as the list of
  its lines, each line given without its terminator.  This matches the way
  `load_expenses` consumes the file: `readlines()` splits at newlines and the
  `#BUDGET,` test only looks at the line's leading characters, while the CSV
  block is re-split with `splitlines()`, which strips the terminators.  The
  model is exact for files whose lines contain none of the extra characters
  `splitlines` also breaks at (`\x0b`, `\x0c`, `\x1c`-`\x1e`, `\x85`,
  `\u2028`, `\u2029`, and interior `\r`) and no NUL byte (on which the `csv`
  module raises); theorems that quantify over arbitrary files carry these
  cleanliness side conditions where they matter.

* Python floats are modelled by `PyNum`: either `nan`, `±inf`, or a finite
  decimal `Dec10` (an integer mantissa `num` over `10 ^ exp`).  Finite float
  arithmetic is idealised as exact decimal arithmetic (binary64 rounding and
  overflow are out of scope); `nan`/`inf` propagation and the partial order
  (`nan` incomparable) follow IEEE-754 as Python implements it.
  `str(float)` is modelled by `numStr`, an (injective, value-correct)
  decimal-scientific rendering accepted by `float()`; Python's shortest
  round-trip `repr` differs in surface syntax but has the same round-trip
  property, which is all the code relies on.

* `float(string)` is modelled by `pyFloat?` following CPython's grammar:
  surrounding whitespace stripped, optional sign, `inf`/`infinity`/`nan`
  case-insensitively, or a decimal literal with optional fraction and
  exponent, with underscores allowed only between digits.  Unicode digits
  and non-ASCII whitespace are not modelled.
-/

namespace ExpenseTracker

abbrev Str := List Char

def toStr (s : String) : Str := s.data

/-- ASCII whitespace as stripped by Python's `str.strip()` / `float()`. -/
def isWS (c : Char) : Bool :=
  c = ' ' ∨ c = '\t' ∨ c = '\n' ∨ c = '\r' ∨ c = '\x0b' ∨ c = '\x0c'

/-- Python `str.strip()` (ASCII whitespace). -/
def stripWS (s : Str) : Str :=
  ((s.dropWhile isWS).reverse.dropWhile isWS).reverse

/-- Characters at which Python's `str.splitlines()` breaks, in addition to
the `\n` used by `readlines()`. -/
def isBreakC (c : Char) : Bool :=
  c = '\n' ∨ c = '\r' ∨ c = '\x0b' ∨ c = '\x0c' ∨ c = '\x1c' ∨ c = '\x1d' ∨
  c = '\x1e' ∨ c = '\x85' ∨ c = '\u2028' ∨ c = '\u2029'

/-- A text fragment that survives the line-level file model exactly:
no line-break characters and no NUL byte. -/
def cleanF (s : Str) : Prop := ∀ c ∈ s, isBreakC c = false ∧ c ≠ '\x00'

instance (s : Str) : Decidable (cleanF s) := by
  unfold cleanF; infer_instance

/-- A finite float value, as the exact decimal `num / 10 ^ exp`.
Kept unnormalised so that all arithmetic is plain integer arithmetic. -/
structure Dec10 where
  num : Int
  exp : Nat
deriving DecidableEq

/-- A Python float: `nan`, `±inf`, or a finite decimal value. -/
inductive PyNum where
  | fin (d : Dec10)
  | pinf
  | ninf
  | nan
deriving DecidableEq

namespace Dec10

def zero : Dec10 := ⟨0, 0⟩

/-- Value-level strict order: `a/10^i < b/10^j ↔ a·10^j < b·10^i`. -/
def ltB (a b : Dec10) : Bool := a.num * 10 ^ b.exp < b.num * 10 ^ a.exp

/-- Value-level equality. -/
def eqB (a b : Dec10) : Bool := a.num * 10 ^ b.exp = b.num * 10 ^ a.exp

/-- Exact decimal addition over the common denominator `10 ^ (i + j)`. -/
def add (a b : Dec10) : Dec10 :=
  ⟨a.num * 10 ^ b.exp + b.num * 10 ^ a.exp, a.exp + b.exp⟩

def neg (a : Dec10) : Dec10 := ⟨-a.num, a.exp⟩

end Dec10

namespace PyNum

/-- Python `x < y` on floats (`nan` incomparable with everything). -/
def ltB : PyNum → PyNum → Bool
  | .fin a, .fin b => a.ltB b
  | .fin _, .pinf => true
  | .fin _, .ninf => false
  | .pinf, _ => false
  | .ninf, .ninf => false
  | .ninf, .nan => false
  | .ninf, _ => true
  | .nan, _ => false
  | _, .nan => false

/-- Python `x <= y` on floats. -/
def leB : PyNum → PyNum → Bool
  | .fin a, .fin b => a.ltB b ∨ a.eqB b
  | .fin _, .pinf => true
  | .fin _, .ninf => false
  | .pinf, .pinf => true
  | .pinf, _ => false
  | .ninf, .nan => false
  | .ninf, _ => true
  | .nan, _ => false
  | _, .nan => false

/-- Python float addition (idealised exactly on finite values). -/
def add : PyNum → PyNum → PyNum
  | .fin a, .fin b => .fin (a.add b)
  | .nan, _ => .nan
  | _, .nan => .nan
  | .pinf, .ninf => .nan
  | .ninf, .pinf => .nan
  | .pinf, _ => .pinf
  | _, .pinf => .pinf
  | .ninf, _ => .ninf
  | _, .ninf => .ninf

def neg : PyNum → PyNum
  | .fin a => .fin a.neg
  | .pinf => .ninf
  | .ninf => .pinf
  | .nan => .nan

def sub (a b : PyNum) : PyNum := a.add b.neg

/-- Python `x == 0` on floats. -/
def eqZeroB : PyNum → Bool
  | .fin a => a.num = 0
  | _ => false

/-- Python truthiness of a float (`bool(0.0) = False`; `nan`, `inf` truthy). -/
def truthyB : PyNum → Bool
  | .fin a => ¬ a.num = 0
  | _ => true

end PyNum

/-! ### Digit strings -/

def dval (c : Char) : Nat := c.toNat - 48

def digitChar10 (d : Nat) : Char := Char.ofNat (48 + d)

/-- Value of a big-endian digit string, as accumulated by a left fold. -/
def digitsVal (s : Str) : Nat := s.foldl (fun a c => 10 * a + dval c) 0

/-- Little-endian base-10 digits of `n`, with explicit fuel (structural,
hence kernel-reducible). -/
def digitsAux : Nat → Nat → List Nat
  | 0, _ => []
  | f + 1, n => if n = 0 then [] else n % 10 :: digitsAux f (n / 10)

/-- Big-endian decimal digit string of `n` (`"0"` for `0`). -/
def natDigits (n : Nat) : Str :=
  if n = 0 then ['0'] else ((digitsAux n n).map digitChar10).reverse

def takeDigits (s : Str) : Str × Str :=
  (s.takeWhile Char.isDigit, s.dropWhile Char.isDigit)

/-! ### `float(string)`: the model of CPython's string-to-float conversion -/

def lowerC (c : Char) : Char :=
  if 'A' ≤ c ∧ c ≤ 'Z' then Char.ofNat (c.toNat + 32) else c

/-- Case-insensitive comparison of `s` against an (already lowercase)
keyword `t`, consuming all of `s`. -/
def lowerEq (s t : Str) : Bool := s.map lowerC = t

/-- CPython accepts underscores in numeric strings only when both
neighbours are digits (`_Py_string_to_number_with_underscores`). -/
def underscoresFine : Option Char → Str → Bool
  | _, [] => true
  | p, c :: t =>
    if c = '_' then
      match p, t with
      | some pc, n :: _ => pc.isDigit ∧ n.isDigit ∧ underscoresFine (some c) t
      | _, _ => false
    else underscoresFine (some c) t

/-- Assemble the finite value `±(ip.fp) · 10 ^ e` as a `Dec10`. -/
def mkFin (neg : Bool) (ip fp : Str) (e : Int) : PyNum :=
  let M : Nat := digitsVal ip * 10 ^ fp.length + digitsVal fp
  let Mi : Int := if neg then -(M : Int) else (M : Int)
  let t : Int := e - fp.length
  if 0 ≤ t then .fin ⟨Mi * 10 ^ t.toNat, 0⟩ else .fin ⟨Mi, (-t).toNat⟩

/-- An optional leading sign. -/
def parseSign : Str → Bool × Str
  | [] => (false, [])
  | c :: t =>
    if c = '-' then (true, t)
    else if c = '+' then (false, t)
    else (false, c :: t)

/-- An optional fraction part `. digits`. -/
def splitFrac : Str → Str × Str
  | [] => ([], [])
  | c :: t => if c = '.' then takeDigits t else ([], c :: t)

/-- `float(s)` for an underscore-free string: optional surrounding
whitespace and sign, then `inf`/`infinity`/`nan` (case-insensitive) or a
decimal literal `digits [. digits] [(e|E) [sign] digits]` with at least one
mantissa digit and nothing left over. -/
def parseFloatNoU (s0 : Str) : Option PyNum :=
  let s := stripWS s0
  if s = [] then none
  else
    let (neg, s1) := parseSign s
    if lowerEq s1 (toStr "inf") ∨ lowerEq s1 (toStr "infinity") then
      some (if neg then .ninf else .pinf)
    else if lowerEq s1 (toStr "nan") then some .nan
    else
      let (ip, r1) := takeDigits s1
      let (fp, r2) := splitFrac r1
      if ip.isEmpty ∧ fp.isEmpty then none
      else
        match r2 with
        | [] => some (mkFin neg ip fp 0)
        | c :: t =>
          if c = 'e' ∨ c = 'E' then
            let (eneg, t1) := parseSign t
            let (ed, t2) := takeDigits t1
            if ed.isEmpty ∨ ¬ t2.isEmpty then none
            else
              some (mkFin neg ip fp
                (if eneg then -(digitsVal ed : Int) else (digitsVal ed : Int)))
          else none

/-- The model of Python's `float(string)`. -/
def pyFloat? (s : Str) : Option PyNum :=
  if underscoresFine none s then parseFloatNoU (s.filter (· ≠ '_')) else none

/-- The model of Python's `str(float)` (see the header comment): `nan`,
`inf`, `-inf`, or mantissa-exponent decimal notation of the exact value. -/
def numStr : PyNum → Str
  | .nan => toStr "nan"
  | .pinf => toStr "inf"
  | .ninf => toStr "-inf"
  | .fin d =>
    (if d.num < 0 then ['-'] else []) ++ natDigits d.num.natAbs ++
      (if d.exp = 0 then [] else 'e' :: '-' :: natDigits d.exp)

/-! ### The `csv` module reader, fed terminator-less lines

`load_expenses` builds `csv.DictReader(csv_content.splitlines())`, so the
reader consumes lines without terminators.  The state machine below is the
CPython `_csv.c` parser for the default dialect (delimiter `,`, quote `"`,
`doublequote`, no escape char, non-strict): at the end of each line the
parser processes an end-of-line event which, inside a quoted field, is
ignored (the embedded newline is lost and the field continues on the next
line). -/

inductive CsvSt where
  | startRec
  | startField (acc : List Str)
  | inField (acc : List Str) (cur : Str)
  | inQuoted (acc : List Str) (cur : Str)
  | quotedQuote (acc : List Str) (cur : Str)
deriving DecidableEq

/-- Transition for a character at the start of a field. -/
def stepOpen (acc : List Str) (c : Char) : CsvSt :=
  if c = '"' then .inQuoted acc []
  else if c = ',' then .startField (acc ++ [[]])
  else .inField acc [c]

def csvStep : CsvSt → Char → CsvSt
  | .startRec, c => stepOpen [] c
  | .startField acc, c => stepOpen acc c
  | .inField acc cur, c =>
    if c = ',' then .startField (acc ++ [cur]) else .inField acc (cur ++ [c])
  | .inQuoted acc cur, c =>
    if c = '"' then .quotedQuote acc cur else .inQuoted acc (cur ++ [c])
  | .quotedQuote acc cur, c =>
    if c = '"' then .inQuoted acc (cur ++ ['"'])
    else if c = ',' then .startField (acc ++ [cur])
    else .inField acc (cur ++ [c])

/-- End-of-line event: emit a finished record, or keep an open quoted
field running into the next line. -/
def csvLineEnd : CsvSt → Option (List Str) × CsvSt
  | .startRec => (some [], .startRec)
  | .startField acc => (some (acc ++ [[]]), .startRec)
  | .inField acc cur => (some (acc ++ [cur]), .startRec)
  | .inQuoted acc cur => (none, .inQuoted acc cur)
  | .quotedQuote acc cur => (some (acc ++ [cur]), .startRec)

/-- End-of-input: a pending (quoted or non-empty) field still yields a
final record (`_csv.c`: `field_len != 0 || state == IN_QUOTED_FIELD`). -/
def csvFinal : CsvSt → Option (List Str)
  | .inQuoted acc cur => some (acc ++ [cur])
  | .inField acc cur => if cur = [] then none else some (acc ++ [cur])
  | .quotedQuote acc cur => if cur = [] then none else some (acc ++ [cur])
  | _ => none

def csvGo (st : CsvSt) : List Str → List (List Str)
  | [] =>
    match csvFinal st with
    | some r => [r]
    | none => []
  | l :: ls =>
    match csvLineEnd (l.foldl csvStep st) with
    | (some r, st') => r :: csvGo st' ls
    | (none, st') => csvGo st' ls

/-- All records produced by `csv.reader` on the given lines. -/
def csvRecords (lines : List Str) : List (List Str) := csvGo .startRec lines

/-! ### Row dictionaries (`csv.DictReader` and the in-memory store) -/

/-- A Python dict value occurring in a loaded row: a string cell, `None`
(missing cell, `restval`), a float (after conversion), or the list of
overflow cells stored under the `None` key (`restkey`). -/
inductive PyVal where
  | vStr (s : Str)
  | vNone
  | vNum (n : PyNum)
  | vList (l : List Str)
deriving DecidableEq

/-- Python truthiness of a dict value. -/
def truthyV : PyVal → Bool
  | .vStr s => ¬ s = []
  | .vNone => false
  | .vNum n => n.truthyB
  | .vList l => ¬ l = []

/-- A dict key: `some` field name, or Python's `None` (`restkey`). -/
abbrev DKey := Option Str

/-- An insertion-ordered dict, unique keys by construction. -/
abbrev PyDict := List (DKey × PyVal)

/-- Python dict assignment: updates in place, appends if new. -/
def dinsert : PyDict → DKey → PyVal → PyDict
  | [], k, v => [(k, v)]
  | (k', v') :: t, k, v =>
    if k' = k then (k', v) :: t else (k', v') :: dinsert t k v

/-- Python dict lookup. -/
def dget : PyDict → DKey → Option PyVal
  | [], _ => none
  | (k', v) :: t, k => if k' = k then some v else dget t k

def dateK : Str := toStr "date"

def catK : Str := toStr "category"

def amountK : Str := toStr "amount"

def descK : Str := toStr "description"

/-- `csv.DictReader.__next__`: zip the header with the row, pad a short
row with `None` (`restval`), stash overflow cells under the `None` key
(`restkey`). -/
def mkDict (hdr row : List Str) : PyDict :=
  let base := (List.zip hdr row).foldl (fun d p => dinsert d (some p.1) (.vStr p.2)) []
  if hdr.length < row.length then dinsert base none (.vList (row.drop hdr.length))
  else (hdr.drop row.length).foldl (fun d k => dinsert d (some k) .vNone) base

/-! ### `load_expenses` -/

/-- Outcome of the body of the `for row in csv_reader` loop for one row:
append the converted row, skip it (`except (ValueError, KeyError)` prints
"Skipping invalid expense entry"), or raise an exception that the row-level
handler does not catch (`float(None)` / `float(list)` raise `TypeError`),
aborting the whole load into the outer `except Exception`. -/
inductive RowStep where
  | app (d : PyDict)
  | skip
  | abort
deriving DecidableEq

def processRow (d : PyDict) : RowStep :=
  match dget d (some amountK) with
  | none => .skip
  | some (.vStr s) =>
    match pyFloat? s with
    | some n => .app (dinsert d (some amountK) (.vNum n))
    | none => .skip
  | some (.vNum n) => .app (dinsert d (some amountK) (.vNum n))
  | some .vNone => .abort
  | some (.vList _) => .abort

/-- Run the row loop: `(appended rows, skipped count, aborted?)`. -/
def runRows (hdr : List Str) : List (List Str) → List PyDict × Nat × Bool
  | [] => ([], 0, false)
  | row :: rest =>
    match processRow (mkDict hdr row) with
    | .app d =>
      let (es, sk, ab) := runRows hdr rest
      (d :: es, sk, ab)
    | .skip =>
      let (es, sk, ab) := runRows hdr rest
      (es, sk + 1, ab)
    | .abort => ([], 0, true)

/-- The line partition in `load_expenses`: the last `#BUDGET,`-prefixed
line (if any) and the remaining lines in order. -/
def markerB (l : Str) : Bool := List.isPrefixOf (toStr "#BUDGET,") l

def partitionLines (lines : List Str) : Option Str × List Str :=
  lines.foldl
    (fun (p : Option Str × List Str) l =>
      if markerB l then (some l, p.2) else (p.1, p.2 ++ [l]))
    (none, [])

/-- Python `"x".split(',')`. -/
def splitComma : Str → List Str
  | [] => [[]]
  | c :: t =>
    if c = ',' then [] :: splitComma t
    else
      match splitComma t with
      | h :: r => (c :: h) :: r
      | [] => [[c]]

/-- `float(budget_line.split(',')[1].strip())` with the
`except (ValueError, IndexError)` fallback to `0`. -/
def parseBudgetLine (l : Str) : PyNum :=
  match (splitComma l).get? 1 with
  | some f =>
    match pyFloat? (stripWS f) with
    | some n => n
    | none => .fin ⟨0, 0⟩
  | none => .fin ⟨0, 0⟩

/-- The state `load_expenses` leaves behind: the appended rows, the budget,
the count of rows skipped with a warning, whether the outer
`except Exception` fired (partial load kept), and whether the
"starting fresh" path was taken. -/
structure LoadRes where
  expenses : List PyDict
  budget : PyNum
  skipped : Nat
  aborted : Bool
  fresh : Bool
deriving DecidableEq

/-- The body of `load_expenses` on an existing file's lines. -/
def loadFromLines (lines : List Str) : LoadRes :=
  let p := partitionLines lines
  let b : PyNum :=
    match p.1 with
    | some l => parseBudgetLine l
    | none => .fin ⟨0, 0⟩
  match csvRecords p.2 with
  | [] => ⟨[], b, 0, false, false⟩
  | hdr :: rows =>
    let (es, sk, ab) := runRows hdr (rows.filter (· ≠ []))
    ⟨es, b, sk, ab, false⟩

/-- `load_expenses`, on `none` (file absent) or `some lines`. -/
def load_expenses : Option (List Str) → LoadRes
  | none => ⟨[], .fin ⟨0, 0⟩, 0, false, true⟩
  | some lines => loadFromLines lines

/-! ### `save_expenses`

The store's records, as produced by `add_expense` and by a clean load, are
four-key dicts `date / category / amount / description` with string fields
and a float amount; `StdRecord` is that shape.  `csv.DictWriter` writes one
row per record in field order, quoting a cell iff it contains the delimiter
or the quote character (cells are single-line here; `\r`/`\n` would also
force quoting), and `str()`-ing the float amount.  The budget marker line
`#BUDGET,<str(budget)>` is always appended. -/

structure StdRecord where
  date : Str
  category : Str
  amount : PyNum
  description : Str
deriving DecidableEq

/-- The store dict corresponding to a standard record. -/
def stdToDict (r : StdRecord) : PyDict :=
  [(some dateK, .vStr r.date), (some catK, .vStr r.category),
   (some amountK, .vNum r.amount), (some descK, .vStr r.description)]

/-- Double every quote character (the writer's `doublequote` escaping). -/
def escQ : Str → Str
  | [] => []
  | c :: t => if c = '"' then '"' :: '"' :: escQ t else c :: escQ t

/-- `QUOTE_MINIMAL` cell rendering for single-line cells. -/
def quoteF (f : Str) : Str :=
  if f.any (fun c => c = ',' ∨ c = '"') then '"' :: escQ f ++ ['"'] else f

/-- A CSV line from its cells. -/
def lineOfFields : List Str → Str
  | [] => []
  | [f] => quoteF f
  | f :: fs => quoteF f ++ ',' :: lineOfFields fs

def headerFields : List Str := [dateK, catK, amountK, descK]

def markerLine (b : PyNum) : Str := toStr "#BUDGET," ++ numStr b

/-- `save_expenses`: header and rows only when the store is non-empty,
then always the budget marker line. -/
def save_expenses (rs : List StdRecord) (b : PyNum) : List Str :=
  (if rs = [] then []
   else
     lineOfFields headerFields ::
       rs.map (fun r =>
         lineOfFields [r.date, r.category, numStr r.amount, r.description])) ++
    [markerLine b]

/-! ### `view_expenses` and `track_budget` -/

/-- The well-formedness filter used by both `view_expenses` and
`track_budget`:
`all(key in expense and expense[key] for key in [...])`. -/
def wellFormedB (d : PyDict) : Bool :=
  headerFields.all fun k =>
    match dget d (some k) with
    | some v => truthyV v
    | none => false

/-- Outcome of `view_expenses`: the rows printed in the table, the number
of "Incomplete expense entry found - skipping" lines, and the running
total — or a crash when `total += expense['amount']` is fed a non-numeric
value (impossible for rows produced by `add_expense`/`load_expenses`). -/
inductive ViewRes where
  | ok (shown : List PyDict) (skipped : Nat) (total : PyNum)
  | crash
deriving DecidableEq

def viewGo (shown : List PyDict) (skipped : Nat) (total : PyNum) :
    List PyDict → ViewRes
  | [] => .ok shown skipped total
  | d :: rest =>
    if wellFormedB d then
      match dget d (some amountK) with
      | some (.vNum n) => viewGo (shown ++ [d]) skipped (total.add n) rest
      | _ => .crash
    else viewGo shown (skipped + 1) total rest

/-- `view_expenses` over the store (display only, store untouched). -/
def view_expenses (rs : List PyDict) : ViewRes :=
  viewGo [] 0 (.fin ⟨0, 0⟩) rs

/-- `sum(expense['amount'] for expense in self.expenses if all(...))`,
`none` when the sum would raise on a non-numeric amount. -/
def trackSum (rs : List PyDict) : Option PyNum :=
  rs.foldl
    (fun acc d =>
      match acc with
      | none => none
      | some t =>
        if wellFormedB d then
          match dget d (some amountK) with
          | some (.vNum n) => some (t.add n)
          | _ => none
        else some t)
    (some (.fin ⟨0, 0⟩))

/-- Outcome of `track_budget`: redirect into `set_budget` when the budget
equals `0`, otherwise report budget, total, and overspend (`total >
budget`) or remaining balance. -/
inductive TrackRes where
  | promptSetBudget
  | report (budget total : PyNum) (overspent : Bool) (diff : PyNum)
  | crash
deriving DecidableEq

def track_budget (rs : List PyDict) (b : PyNum) : TrackRes :=
  if b.eqZeroB then .promptSetBudget
  else
    match trackSum rs with
    | none => .crash
    | some t =>
      if PyNum.ltB b t then .report b t true (t.sub b)
      else .report b t false (b.sub t)

/-! ### `add_expense` and entry validation -/

/-- `_strptime`'s match of `%Y-%m-%d`: exactly four year digits, one or two
month digits in `1..12`, one or two day digits in `1..31`, nothing left. -/
def parseYMD (s : Str) : Option (Nat × Nat × Nat) :=
  let (yd, r1) := takeDigits s
  if yd.length = 4 then
    match r1 with
    | '-' :: r2 =>
      let (md, r3) := takeDigits r2
      if 1 ≤ md.length ∧ md.length ≤ 2 ∧ 1 ≤ digitsVal md ∧ digitsVal md ≤ 12 then
        match r3 with
        | '-' :: r4 =>
          let (dd, r5) := takeDigits r4
          if 1 ≤ dd.length ∧ dd.length ≤ 2 ∧ 1 ≤ digitsVal dd ∧ digitsVal dd ≤ 31 ∧
              r5 = [] then
            some (digitsVal yd, digitsVal md, digitsVal dd)
          else none
        | _ => none
      else none
    | _ => none
  else none

/-- `datetime`'s per-month day count, with the Gregorian leap rule. -/
def daysInMonth (y m : Nat) : Nat :=
  if m = 2 then
    if y % 4 = 0 ∧ (¬ y % 100 = 0 ∨ y % 400 = 0) then 29 else 28
  else if m = 4 ∨ m = 6 ∨ m = 9 ∨ m = 11 then 30
  else 31

/-- The `datetime` constructor's validation (`MINYEAR = 1`,
`MAXYEAR = 9999`). -/
def realDateB (y m d : Nat) : Bool :=
  1 ≤ y ∧ y ≤ 9999 ∧ 1 ≤ m ∧ m ≤ 12 ∧ 1 ≤ d ∧ d ≤ daysInMonth y m

/-- Acceptance of a date string by the entry loop:
`datetime.strptime(date_input, "%Y-%m-%d")` succeeds. -/
def validDate (s : Str) : Bool :=
  match parseYMD s with
  | some (y, m, d) => realDateB y m d
  | none => false

/-- First input accepted by a blocking re-prompt loop, with the remaining
input stream; `none` when the stream runs out (the real loop re-prompts
forever). -/
def firstAccept (f : Str → Option α) : List Str → Option (α × List Str)
  | [] => none
  | s :: rest =>
    match f s with
    | some a => some (a, rest)
    | none => firstAccept f rest

/-- The date prompt: `input().strip()`, accepted iff `strptime` succeeds. -/
def acceptDate (s : Str) : Option Str :=
  if validDate (stripWS s) then some (stripWS s) else none

/-- The category/description prompts: `input().strip()`, non-empty. -/
def acceptText (s : Str) : Option Str :=
  if stripWS s = [] then none else some (stripWS s)

/-- The amount prompt: `float(input())` must succeed and the guard
`if amount <= 0: continue` must not fire. -/
def acceptAmount (s : Str) : Option PyNum :=
  match pyFloat? s with
  | some n => if n.leB (.fin ⟨0, 0⟩) then none else some n
  | none => none

/-- `add_expense` over an input stream: the four prompts in order, each a
blocking re-prompt loop, then the record appended to the store. -/
def add_expense (inputs : List Str) : Option StdRecord :=
  match firstAccept acceptDate inputs with
  | none => none
  | some (d, r1) =>
    match firstAccept acceptText r1 with
    | none => none
    | some (c, r2) =>
      match firstAccept acceptAmount r2 with
      | none => none
      | some (a, r3) =>
        match firstAccept acceptText r3 with
        | none => none
        | some (ds, _) => some ⟨d, c, a, ds⟩

/-! ### Claim-side specification functions -/

/-- The amount field of a store record, as a number (spec-side reading;
records reachable through `add_expense`/`load_expenses` always hold a
`vNum` there when well-formed). -/
def amountOf (d : PyDict) : PyNum :=
  match dget d (some amountK) with
  | some (.vNum n) => n
  | _ => .fin ⟨0, 0⟩

def sumFrom (t : PyNum) (rs : List PyDict) : PyNum :=
  rs.foldl (fun a d => a.add (amountOf d)) t

/-- The sum of `amount` over a list of records. -/
def sumAmounts (rs : List PyDict) : PyNum := sumFrom (.fin ⟨0, 0⟩) rs

/-- The converted row a data row contributes to the store, `none` when the
row is skipped or aborts. -/
def rowConv (hdr row : List Str) : Option PyDict :=
  match processRow (mkDict hdr row) with
  | .app d => some d
  | _ => none

/-- The cells of one saved record row. -/
def toFields (r : StdRecord) : List Str :=
  [r.date, r.category, numStr r.amount, r.description]

/-! ## Helper lemmas -/

theorem dget_dinsert (d : PyDict) (k0 : DKey) (v0 : PyVal) (k : DKey) :
    dget (dinsert d k0 v0) k = if k0 = k then some v0 else dget d k := by
  induction d with
  | nil => simp [dinsert, dget]
  | cons p t ih =>
    obtain ⟨k', v'⟩ := p
    by_cases h : k' = k0
    · subst h
      by_cases h2 : k' = k <;> simp [dinsert, dget, h2]
    · by_cases h2 : k' = k
      · subst h2
        simp [dinsert, dget, h, ih, Ne.symm h]
      · simp [dinsert, dget, h, h2, ih]

theorem dget_foldl_vstr (l : List (Str × Str)) (base : PyDict) (k : Str) (v : PyVal)
    (h : dget (l.foldl (fun d p => dinsert d (some p.1) (.vStr p.2)) base) (some k) = some v) :
    (∃ s, v = .vStr s) ∨ dget base (some k) = some v := by
  induction l generalizing base with
  | nil => exact .inr h
  | cons p t ih =>
    rcases ih _ h with h1 | h1
    · exact .inl h1
    · rw [dget_dinsert] at h1
      by_cases he : some p.1 = some k
      · simp [he] at h1
        exact .inl ⟨p.2, h1.symm⟩
      · simp [he] at h1
        exact .inr h1

theorem dget_foldl_vnone (l : List Str) (base : PyDict) (k : Str) (v : PyVal)
    (h : dget (l.foldl (fun d k' => dinsert d (some k') .vNone) base) (some k) = some v) :
    v = .vNone ∨ dget base (some k) = some v := by
  induction l generalizing base with
  | nil => exact .inr h
  | cons p t ih =>
    rcases ih _ h with h1 | h1
    · exact .inl h1
    · rw [dget_dinsert] at h1
      by_cases he : some p = some k
      · simp [he] at h1
        exact .inl h1.symm
      · simp [he] at h1
        exact .inr h1

/-- Any value a `DictReader` row dict holds under a named key is a string
cell or `None` (the `restkey` list only ever sits under the `None` key). -/
theorem mkDict_named_val (hdr row : List Str) (k : Str) (v : PyVal)
    (h : dget (mkDict hdr row) (some k) = some v) :
    (∃ s, v = .vStr s) ∨ v = .vNone := by
  unfold mkDict at h
  by_cases hl : hdr.length < row.length
  · simp only [hl, if_pos] at h
    rw [dget_dinsert] at h
    simp at h
    rcases dget_foldl_vstr _ _ _ _ h with h1 | h1
    · exact .inl h1
    · simp [dget] at h1
  · simp only [hl, if_neg, if_false] at h
    rcases dget_foldl_vnone _ _ _ _ h with h1 | h1
    · exact .inr h1
    · rcases dget_foldl_vstr _ _ _ _ h1 with h2 | h2
      · exact .inl h2
      · simp [dget] at h2

/-- A row never aborts the load unless it put `None` under `'amount'`. -/
theorem processRow_abort_iff (hdr row : List Str) :
    processRow (mkDict hdr row) = .abort ↔
      dget (mkDict hdr row) (some amountK) = some .vNone := by
  unfold processRow
  constructor
  · intro h
    cases hv : dget (mkDict hdr row) (some amountK) with
    | none => simp [hv] at h
    | some v =>
      rcases mkDict_named_val _ _ _ _ hv with ⟨s, rfl⟩ | rfl
      · cases hp : pyFloat? s <;> simp [hv, hp] at h
      · rfl
  · intro h
    simp [h]

/-! ### The line partition (helper for several claims) -/

theorem partitionFold (lines : List Str) (b : Option Str) (acc : List Str) :
    lines.foldl
        (fun (p : Option Str × List Str) l =>
          if markerB l then (some l, p.2) else (p.1, p.2 ++ [l]))
        (b, acc) =
      ((lines.filter markerB).getLast?.elim b some,
        acc ++ lines.filter (fun l => ¬ markerB l)) := by
  induction lines generalizing b acc with
  | nil => simp
  | cons l t ih =>
    by_cases h : markerB l
    · simp only [List.foldl_cons, h, if_pos, List.filter_cons_of_pos, ih]
      rcases hl : (t.filter markerB).getLast? with _ | m
      · simp [List.getLast?_cons, hl, h]
      · simp [List.getLast?_cons, hl, h]
    · simp only [List.foldl_cons, h, if_neg, Bool.false_eq_true, not_false_iff, ih]
      simp [List.filter_cons, h, List.append_assoc]

theorem partitionLines_eq (lines : List Str) :
    partitionLines lines =
      ((lines.filter markerB).getLast?,
        lines.filter (fun l => ¬ markerB l)) := by
  unfold partitionLines
  rw [partitionFold]
  rcases (lines.filter markerB).getLast? with _ | m <;> simp

/-- The budget `load_expenses` leaves behind is decided entirely by the
line partition, before any row is processed. -/
theorem load_budget_eq (lines : List Str) :
    (load_expenses (some lines)).budget =
      ((lines.filter markerB).getLast?.elim (PyNum.fin ⟨0, 0⟩) parseBudgetLine) := by
  show (loadFromLines lines).budget = _
  simp only [loadFromLines, partitionLines_eq]
  rcases (lines.filter markerB).getLast? with _ | m <;>
    simp only [Option.elim] <;>
    rcases hr : csvRecords (lines.filter fun l => !markerB l) with _ | ⟨hdr, rows⟩ <;>
    simp [hr]

/-! ## The claims -/

/-- **C9.** When the persistence file does not exist, `load_expenses`
produces an empty record sequence and budget `0`, takes the
"starting fresh" path, and no error path is taken. -/
theorem c9_missing_file_fresh :
    load_expenses none =
      ⟨[], .fin ⟨0, 0⟩, 0, false, true⟩ := rfl

/-- A file whose second line is a data row missing the `amount` cell,
followed by a perfectly valid row. -/
def c2File : List Str :=
  [toStr "date,category,amount,description",
   toStr "2024-01-01,Food",
   toStr "2024-01-02,Fuel,5.0,gas"]

/-- **C2.** The claim (and spec) say a data row with an absent `amount`
cell is skipped with a warning and the rest of the file still loads.  The
code instead fills the missing cell with `None`, `float(None)` raises
`TypeError`, which `except (ValueError, KeyError)` does not catch: the
whole load aborts (`aborted = true`), nothing is reported as skipped
(`skipped = 0`), and the valid row after it is lost (`expenses = []`). -/
theorem c2_short_row_aborts_load :
    processRow (mkDict headerFields [toStr "2024-01-01", toStr "Food"]) = .abort ∧
    load_expenses (some c2File) = ⟨[], .fin ⟨0, 0⟩, 0, true, false⟩ := by
  constructor
  · decide
  · decide

/-- **C8.** With more than one `#BUDGET,` marker line in the file, the
partition keeps the last marker (last-seen-wins), treats exactly the
non-marker lines as tabular content, and the loaded budget is parsed from
that last marker line. -/
theorem c8_last_marker_wins (lines : List Str) (m : Str)
    (hm : 2 ≤ (lines.filter markerB).length)
    (hlast : (lines.filter markerB).getLast? = some m) :
    (partitionLines lines).1 = some m ∧
    (partitionLines lines).2 = lines.filter (fun l => ¬ markerB l) ∧
    (load_expenses (some lines)).budget = parseBudgetLine m := by
  refine ⟨?_, ?_, ?_⟩
  · rw [partitionLines_eq, hlast]
  · rw [partitionLines_eq]
  · rw [load_budget_eq, hlast]
    rfl

theorem c8_last_marker_wins_witness :
    2 ≤ ((([toStr "#BUDGET,5", toStr "#BUDGET,7"] : List Str)).filter markerB).length ∧
    (load_expenses (some [toStr "#BUDGET,5", toStr "#BUDGET,7"])).budget =
      parseBudgetLine (toStr "#BUDGET,7") := by
  refine ⟨by decide, ?_⟩
  exact (c8_last_marker_wins [toStr "#BUDGET,5", toStr "#BUDGET,7"]
    (toStr "#BUDGET,7") (by decide) (by decide)).2.2

/-! ### Totals over well-formed records (C4, C5, C10) -/

/-- A store on which the two total computations cannot raise: every
well-formed record holds a number under `'amount'` (true of every store
reachable through `add_expense` / `load_expenses`). -/
def numericStore (rs : List PyDict) : Prop :=
  ∀ d ∈ rs, wellFormedB d = true → ∃ n, dget d (some amountK) = some (.vNum n)

def numericAmountB (d : PyDict) : Bool :=
  match dget d (some amountK) with
  | some (.vNum _) => true
  | _ => false

theorem numericAmountB_iff (d : PyDict) :
    numericAmountB d = true ↔ ∃ n, dget d (some amountK) = some (.vNum n) := by
  unfold numericAmountB
  cases h : dget d (some amountK) with
  | none => simp
  | some v => cases v <;> simp

instance (d : PyDict) : Decidable (∃ n, dget d (some amountK) = some (.vNum n)) :=
  decidable_of_iff _ (numericAmountB_iff d)

instance (rs : List PyDict) : Decidable (numericStore rs) := by
  unfold numericStore; infer_instance

theorem viewGo_char (rs : List PyDict) (h : numericStore rs) :
    ∀ (shown : List PyDict) (sk : Nat) (t : PyNum),
      viewGo shown sk t rs =
        .ok (shown ++ rs.filter wellFormedB)
          (sk + rs.countP fun d => ¬ wellFormedB d)
          (sumFrom t (rs.filter wellFormedB)) := by
  induction rs with
  | nil => intro shown sk t; simp [viewGo, sumFrom]
  | cons d rest ih =>
    intro shown sk t
    have hrest : numericStore rest := fun x hx => h x (List.mem_cons_of_mem _ hx)
    by_cases hw : wellFormedB d
    · obtain ⟨n, hn⟩ := h d (List.mem_cons_self _ _) hw
      simp only [viewGo, hw, if_pos, hn]
      rw [ih hrest]
      simp [List.filter_cons, hw, List.countP_cons, sumFrom, amountOf, hn]
    · rw [viewGo, if_neg hw, ih hrest]
      simp [List.filter_cons, hw, List.countP_cons]
      omega

theorem trackSum_char (rs : List PyDict) (h : numericStore rs) :
    trackSum rs = some (sumAmounts (rs.filter wellFormedB)) := by
  unfold trackSum sumAmounts
  suffices hgen : ∀ (t : PyNum),
      rs.foldl
          (fun acc d =>
            match acc with
            | none => none
            | some t =>
              if wellFormedB d then
                match dget d (some amountK) with
                | some (.vNum n) => some (t.add n)
                | _ => none
              else some t)
          (some t) =
        some (sumFrom t (rs.filter wellFormedB)) from hgen _
  induction rs with
  | nil => intro t; simp [sumFrom]
  | cons d rest ih =>
    intro t
    have hrest : numericStore rest := fun x hx => h x (List.mem_cons_of_mem _ hx)
    by_cases hw : wellFormedB d
    · obtain ⟨n, hn⟩ := h d (List.mem_cons_self _ _) hw
      simp only [List.foldl_cons, hw, if_pos, hn, ih hrest]
      simp [List.filter_cons, hw, sumFrom, amountOf, hn]
    · simp only [List.foldl_cons, hw, Bool.false_eq_true, if_false, ih hrest]
      simp [List.filter_cons, hw]

/-- **C4.** On any store where the sums are defined, the total computed by
`view_expenses` and the total computed by `track_budget` both equal the sum
of `amount` over exactly the well-formed records; ill-formed records
contribute nothing to the total, each is reported (counted as an
"Incomplete expense entry" line), and the store itself is left untouched
(`view_expenses` only reads `rs`). -/
theorem c4_totals_over_wellformed (rs : List PyDict) (h : numericStore rs) :
    view_expenses rs =
      .ok (rs.filter wellFormedB)
        (rs.countP fun d => ¬ wellFormedB d)
        (sumAmounts (rs.filter wellFormedB)) ∧
    trackSum rs = some (sumAmounts (rs.filter wellFormedB)) := by
  refine ⟨?_, trackSum_char rs h⟩
  unfold view_expenses
  rw [viewGo_char rs h]
  simp [sumAmounts]

def c4rs : List PyDict :=
  [stdToDict ⟨toStr "2024-03-01", toStr "Food", .fin ⟨125, 1⟩, toStr "Lunch"⟩,
   [(some dateK, .vStr (toStr "2024-03-02")), (some catK, .vStr [])],
   stdToDict ⟨toStr "2024-03-03", toStr "Gas", .fin ⟨300, 1⟩, toStr "Fuel"⟩]

theorem c4_totals_over_wellformed_witness :
    numericStore c4rs ∧
    view_expenses c4rs =
      .ok (c4rs.filter wellFormedB)
        (c4rs.countP fun d => ¬ wellFormedB d)
        (sumAmounts (c4rs.filter wellFormedB)) ∧
    trackSum c4rs = some (sumAmounts (c4rs.filter wellFormedB)) :=
  ⟨by decide, c4_totals_over_wellformed c4rs (by decide)⟩

theorem pos_not_eqZero (b : PyNum) (hb : PyNum.ltB (.fin ⟨0, 0⟩) b = true) :
    b.eqZeroB = false := by
  cases b with
  | fin d =>
    simp [PyNum.ltB, Dec10.ltB] at hb
    simp [PyNum.eqZeroB]
    omega
  | pinf => rfl
  | ninf => simp [PyNum.ltB] at hb
  | nan => simp [PyNum.ltB] at hb

/-- **C5.** With a strictly positive budget, `track_budget` reports an
overspend equal to `total - budget` exactly when the well-formed total
strictly exceeds the budget, and otherwise a remaining balance equal to
`budget - total`. -/
theorem c5_overspend_or_remaining (rs : List PyDict) (b : PyNum)
    (hb : PyNum.ltB (.fin ⟨0, 0⟩) b = true) (h : numericStore rs) :
    track_budget rs b =
      (if PyNum.ltB b (sumAmounts (rs.filter wellFormedB)) then
        .report b (sumAmounts (rs.filter wellFormedB)) true
          ((sumAmounts (rs.filter wellFormedB)).sub b)
      else
        .report b (sumAmounts (rs.filter wellFormedB)) false
          (b.sub (sumAmounts (rs.filter wellFormedB)))) := by
  unfold track_budget
  rw [pos_not_eqZero b hb, trackSum_char rs h]
  simp

def c5rs : List PyDict :=
  [stdToDict ⟨toStr "2024-03-01", toStr "Food", .fin ⟨300, 1⟩, toStr "Lunch"⟩,
   stdToDict ⟨toStr "2024-03-02", toStr "Gas", .fin ⟨400, 1⟩, toStr "Fuel"⟩]

/-- Scenario C of the spec: budget `50.00`, expenses totalling `70.00`,
overspend reported as `20.00` (the value-level reading of the computed
`Dec10`). -/
theorem c5_overspend_or_remaining_witness :
    PyNum.ltB (.fin ⟨0, 0⟩) (.fin ⟨50, 0⟩) = true ∧
    track_budget c5rs (.fin ⟨50, 0⟩) =
      (if PyNum.ltB (.fin ⟨50, 0⟩) (sumAmounts (c5rs.filter wellFormedB)) then
        .report (.fin ⟨50, 0⟩) (sumAmounts (c5rs.filter wellFormedB)) true
          ((sumAmounts (c5rs.filter wellFormedB)).sub (.fin ⟨50, 0⟩))
      else
        .report (.fin ⟨50, 0⟩) (sumAmounts (c5rs.filter wellFormedB)) false
          ((PyNum.fin ⟨50, 0⟩).sub (sumAmounts (c5rs.filter wellFormedB)))) ∧
    PyNum.ltB (.fin ⟨50, 0⟩) (sumAmounts (c5rs.filter wellFormedB)) = true ∧
    Dec10.eqB ⟨2000, 2⟩ ⟨20, 0⟩ = true ∧
    (sumAmounts (c5rs.filter wellFormedB)).sub (.fin ⟨50, 0⟩) = .fin ⟨2000, 2⟩ :=
  ⟨by decide, c5_overspend_or_remaining c5rs (.fin ⟨50, 0⟩) (by decide) (by decide),
    by decide, by decide, by decide⟩

/-! ### C10: rows that load but never count -/

theorem viewGo_append_illformed (d' : PyDict) (hw : wellFormedB d' = false)
    (rs : List PyDict) :
    ∀ (shown : List PyDict) (sk : Nat) (t : PyNum),
      viewGo shown sk t (rs ++ [d']) =
        (match viewGo shown sk t rs with
          | .ok sh sk' t' => .ok sh (sk' + 1) t'
          | .crash => .crash) := by
  induction rs with
  | nil => intro shown sk t; simp [viewGo, hw]
  | cons d rest ih =>
    intro shown sk t
    by_cases hwd : wellFormedB d
    · cases hv : dget d (some amountK) with
      | none => simp [viewGo, hwd, hv]
      | some v => cases v <;> simp [viewGo, hwd, hv, ih]
    · simp [viewGo, hwd, ih]

theorem trackSum_append_illformed (d' : PyDict) (hw : wellFormedB d' = false)
    (rs : List PyDict) :
    trackSum (rs ++ [d']) = trackSum rs := by
  unfold trackSum
  rw [List.foldl_append]
  rcases List.foldl _ (some (PyNum.fin ⟨0, 0⟩)) rs with _ | t <;> simp [hw]

/-- **C10.** A data row whose `amount` cell parses as a number is appended
to the store even when the parsed amount is `0.0` or one of the other
fields is the empty string; such a record is not well-formed, so appending
it leaves the displayed listing and both totals unchanged (it is only
counted once more as an "Incomplete expense entry" line). -/
theorem c10_zero_or_empty_loaded_but_excluded (d : PyDict) (s : Str) (n : PyNum)
    (ha : dget d (some amountK) = some (.vStr s))
    (hn : pyFloat? s = some n)
    (hbad : n.truthyB = false ∨
      ∃ k ∈ [dateK, catK, descK],
        dget (dinsert d (some amountK) (.vNum n)) (some k) = some (.vStr [])) :
    processRow d = .app (dinsert d (some amountK) (.vNum n)) ∧
    wellFormedB (dinsert d (some amountK) (.vNum n)) = false ∧
    ∀ rs : List PyDict,
      viewGo [] 0 (.fin ⟨0, 0⟩) (rs ++ [dinsert d (some amountK) (.vNum n)]) =
        (match view_expenses rs with
          | .ok sh sk' t' => .ok sh (sk' + 1) t'
          | .crash => .crash) ∧
      trackSum (rs ++ [dinsert d (some amountK) (.vNum n)]) = trackSum rs := by
  have happ : processRow d = .app (dinsert d (some amountK) (.vNum n)) := by
    simp [processRow, ha, hn]
  have hwf : wellFormedB (dinsert d (some amountK) (.vNum n)) = false := by
    rcases hbad with hz | ⟨k, hk, he⟩
    · have hv : dget (dinsert d (some amountK) (.vNum n)) (some amountK) =
          some (.vNum n) := by
        rw [dget_dinsert]
        simp
      unfold wellFormedB
      simp only [headerFields, List.all_cons, List.all_nil, hv]
      simp [truthyV, hz]
    · unfold wellFormedB
      fin_cases hk <;>
        simp only [headerFields, List.all_cons, List.all_nil, he] <;>
        simp [truthyV]
  refine ⟨happ, hwf, fun rs => ⟨?_, trackSum_append_illformed _ hwf rs⟩⟩
  rw [viewGo_append_illformed _ hwf]
  rfl

def c10row : PyDict :=
  mkDict headerFields [toStr "2024-01-01", [], toStr "0", toStr "x"]

theorem c10_zero_or_empty_loaded_but_excluded_witness :
    dget c10row (some amountK) = some (.vStr (toStr "0")) ∧
    pyFloat? (toStr "0") = some (.fin ⟨0, 0⟩) ∧
    (PyNum.fin ⟨0, 0⟩).truthyB = false ∧
    processRow c10row = .app (dinsert c10row (some amountK) (.vNum (.fin ⟨0, 0⟩))) ∧
    wellFormedB (dinsert c10row (some amountK) (.vNum (.fin ⟨0, 0⟩))) = false ∧
    viewGo [] 0 (.fin ⟨0, 0⟩) (c4rs ++ [dinsert c10row (some amountK) (.vNum (.fin ⟨0, 0⟩))]) =
      (match view_expenses c4rs with
        | .ok sh sk' t' => .ok sh (sk' + 1) t'
        | .crash => .crash) ∧
    trackSum (c4rs ++ [dinsert c10row (some amountK) (.vNum (.fin ⟨0, 0⟩))]) =
      trackSum c4rs := by
  have h := c10_zero_or_empty_loaded_but_excluded c10row (toStr "0") (.fin ⟨0, 0⟩)
    (by decide) (by decide) (.inl (by decide))
  exact ⟨by decide, by decide, by decide, h.1, h.2.1, (h.2.2 c4rs).1, (h.2.2 c4rs).2⟩

/-! ### C6: dates accepted at entry -/

/-- **C6.** `2024-02-30` is rejected at entry, and every date string the
entry loop accepts decomposes under the `%Y-%m-%d` parse into a year,
month and day that form a real calendar date (month in range, day within
the month's length under the Gregorian leap rule, year in `datetime`'s
range). -/
theorem c6_dates_real (s : Str) (h : validDate s = true) :
    validDate (toStr "2024-02-30") = false ∧
    ∃ y m d, parseYMD s = some (y, m, d) ∧
      1 ≤ y ∧ y ≤ 9999 ∧ 1 ≤ m ∧ m ≤ 12 ∧ 1 ≤ d ∧ d ≤ daysInMonth y m := by
  refine ⟨by decide, ?_⟩
  unfold validDate at h
  cases hp : parseYMD s with
  | none => rw [hp] at h; exact absurd h (by simp)
  | some ymd =>
    obtain ⟨y, m, d⟩ := ymd
    rw [hp] at h
    unfold realDateB at h
    simp only [decide_eq_true_eq, Bool.and_eq_true] at h
    exact ⟨y, m, d, rfl, by tauto⟩

/-- The leap-year instance of C6: `2024-02-29` is accepted and decomposes
into the real calendar date 29 February 2024. -/
theorem c6_dates_real_witness :
    validDate (toStr "2024-02-29") = true ∧
    (validDate (toStr "2024-02-30") = false ∧
      ∃ y m d, parseYMD (toStr "2024-02-29") = some (y, m, d) ∧
        1 ≤ y ∧ y ≤ 9999 ∧ 1 ≤ m ∧ m ≤ 12 ∧ 1 ≤ d ∧ d ≤ daysInMonth y m) :=
  ⟨by decide, c6_dates_real (toStr "2024-02-29") (by decide)⟩

/-! ### C7: amounts accepted at entry -/

theorem firstAccept_mem {α : Type} (f : Str → Option α) (l : List Str)
    (a : α) (rest : List Str) (h : firstAccept f l = some (a, rest)) :
    ∃ s ∈ l, f s = some a := by
  induction l with
  | nil => simp [firstAccept] at h
  | cons s t ih =>
    unfold firstAccept at h
    cases hf : f s with
    | some b =>
      rw [hf] at h
      simp at h
      exact ⟨s, List.mem_cons_self _ _, by rw [hf, h.1]⟩
    | none =>
      rw [hf] at h
      obtain ⟨s', hs', hfs'⟩ := ih h
      exact ⟨s', List.mem_cons_of_mem _ hs', hfs'⟩

/-- The `amount <= 0` guard lets exactly `nan` through without the value
being strictly positive. -/
theorem not_le_zero_nan_or_pos (n : PyNum)
    (h : n.leB (.fin ⟨0, 0⟩) = false) :
    n = .nan ∨ PyNum.ltB (.fin ⟨0, 0⟩) n = true := by
  cases n with
  | fin d =>
    refine .inr ?_
    simp [PyNum.leB, Dec10.ltB, Dec10.eqB] at h
    simp [PyNum.ltB, Dec10.ltB]
    omega
  | pinf => exact .inr rfl
  | ninf => simp [PyNum.leB] at h
  | nan => exact .inl rfl

/-- The record delivered by a successful `add_expense` run. -/
theorem add_expense_fields (inputs : List Str) (r : StdRecord)
    (h : add_expense inputs = some r) :
    ∃ s, acceptAmount s = some r.amount := by
  unfold add_expense at h
  cases h1 : firstAccept acceptDate inputs with
  | none => simp [h1] at h
  | some p1 =>
    obtain ⟨d, r1⟩ := p1
    simp only [h1] at h
    cases h2 : firstAccept acceptText r1 with
    | none => simp [h2] at h
    | some p2 =>
      obtain ⟨c, r2⟩ := p2
      simp only [h2] at h
      cases h3 : firstAccept acceptAmount r2 with
      | none => simp [h3] at h
      | some p3 =>
        obtain ⟨a, r3⟩ := p3
        simp only [h3] at h
        cases h4 : firstAccept acceptText r3 with
        | none => simp [h4] at h
        | some p4 =>
          obtain ⟨ds, r4⟩ := p4
          simp only [h4, Option.some.injEq] at h
          obtain ⟨s, _, hs⟩ := firstAccept_mem _ _ _ _ h3
          refine ⟨s, ?_⟩
          rw [hs, ← h]

/-- **C7 (amended).** Every amount accepted by the entry loop is either
strictly positive or `nan`; an input parsing to a value `<= 0` (zero or
negative) is rejected, and a non-parsing input is rejected — neither is
ever stored.  (`nan` is the one accepted value that is not positive: the
guard `amount <= 0` is false for it.) -/
theorem c7_amended_accepted_amounts (inputs : List Str) (r : StdRecord)
    (h : add_expense inputs = some r) :
    (r.amount = .nan ∨ PyNum.ltB (.fin ⟨0, 0⟩) r.amount = true) ∧
    (∀ s, pyFloat? s = none → acceptAmount s = none) ∧
    (∀ s n, pyFloat? s = some n → n.leB (.fin ⟨0, 0⟩) = true →
      acceptAmount s = none) := by
  refine ⟨?_, ?_, ?_⟩
  · obtain ⟨s, hs⟩ := add_expense_fields inputs r h
    unfold acceptAmount at hs
    cases hp : pyFloat? s with
    | none => simp [hp] at hs
    | some n =>
      simp only [hp] at hs
      by_cases hle : n.leB (.fin ⟨0, 0⟩) = true
      · rw [if_pos hle] at hs
        simp at hs
      · rw [if_neg hle] at hs
        simp only [Option.some.injEq] at hs
        rw [← hs]
        exact not_le_zero_nan_or_pos n (by simpa using hle)
  · intro s hp
    simp [acceptAmount, hp]
  · intro s n hp hle
    simp only [acceptAmount, hp]
    rw [if_pos hle]

def c7wIn : List Str :=
  [toStr "2024-03-01", toStr "Food", toStr "0", toStr "-5", toStr "abc",
   toStr "12.50", toStr "Lunch"]

def c7wRec : StdRecord :=
  ⟨toStr "2024-03-01", toStr "Food", .fin ⟨1250, 2⟩, toStr "Lunch"⟩

theorem c7_amended_accepted_amounts_witness :
    add_expense c7wIn = some c7wRec ∧
    ((c7wRec.amount = .nan ∨ PyNum.ltB (.fin ⟨0, 0⟩) c7wRec.amount = true) ∧
      (∀ s, pyFloat? s = none → acceptAmount s = none) ∧
      (∀ s n, pyFloat? s = some n → n.leB (.fin ⟨0, 0⟩) = true →
        acceptAmount s = none)) :=
  ⟨by decide, c7_amended_accepted_amounts c7wIn c7wRec (by decide)⟩

def c7cxIn : List Str :=
  [toStr "2024-03-01", toStr "Food", toStr "nan", toStr "Lunch"]

/-- **C7 (counterexample to the claim as stated).** The input `nan` parses
as a float and passes the `amount <= 0` guard, so `add_expense` accepts
and stores it — yet `nan` is not strictly greater than zero. -/
theorem c7_nan_accepted_cx :
    add_expense c7cxIn =
      some ⟨toStr "2024-03-01", toStr "Food", .nan, toStr "Lunch"⟩ ∧
    PyNum.ltB (.fin ⟨0, 0⟩) .nan = false := by
  constructor
  · decide
  · decide

/-! ### C3: non-numeric rows are skipped, everything else loads -/

theorem runRows_no_abort (hdr : List Str) (rows : List (List Str))
    (h : ∀ row ∈ rows, processRow (mkDict hdr row) ≠ .abort) :
    runRows hdr rows =
      (rows.filterMap (rowConv hdr),
        (rows.filter fun row => rowConv hdr row = none).length,
        false) := by
  induction rows with
  | nil => simp [runRows]
  | cons row rest ih =>
    have hrest : ∀ r ∈ rest, processRow (mkDict hdr r) ≠ .abort :=
      fun r hr => h r (List.mem_cons_of_mem _ hr)
    cases hp : processRow (mkDict hdr row) with
    | app d =>
      have hc : rowConv hdr row = some d := by
        unfold rowConv
        rw [hp]
      rw [runRows, hp, ih hrest]
      simp [List.filterMap_cons, List.filter_cons, hc]
    | skip =>
      have hc : rowConv hdr row = none := by
        unfold rowConv
        rw [hp]
      rw [runRows, hp, ih hrest]
      simp [List.filterMap_cons, List.filter_cons, hc]
    | abort => exact absurd hp (h row (List.mem_cons_self _ _))

/-- An empty data row produces a dict with no string cells at all (so in
particular it cannot carry the non-numeric amount of C3's hypothesis). -/
theorem mkDict_nil_no_vstr (hdr : List Str) (k : Str) (s : Str) :
    dget (mkDict hdr []) (some k) ≠ some (.vStr s) := by
  intro h
  unfold mkDict at h
  simp only [List.zip_nil_right, List.foldl_nil, List.length_nil,
    Nat.not_lt_zero, if_false, List.drop_zero] at h
  rcases dget_foldl_vnone hdr [] k _ h with h1 | h1
  · exact absurd h1 (by simp)
  · simp [dget] at h1

def c3File : List Str :=
  [toStr "date,category,amount,description",
   toStr "a,b,xyz,d",
   toStr "2024-01-01,Food",
   toStr "2024-01-02,Fuel,5,gas"]

/-- **C3 (counterexample to the claim as stated).** `c3File`'s tabular
block contains a data row whose amount cell `"xyz"` is non-numeric — yet
the load *does* fail (a later short row raises an uncaught `TypeError`)
and the valid final row is *not* loaded: the claim's "does not fail, and
still loads every other valid row" is false for this file. -/
theorem c3_nonnumeric_cx :
    pyFloat? (toStr "xyz") = none ∧
    dget (mkDict headerFields [toStr "a", toStr "b", toStr "xyz", toStr "d"])
        (some amountK) = some (.vStr (toStr "xyz")) ∧
    load_expenses (some c3File) = ⟨[], .fin ⟨0, 0⟩, 1, true, false⟩ := by
  refine ⟨by decide, by decide, by decide⟩

/-- **C3 (amended).** For every file whose tabular block contains a data
row with a non-numeric amount cell, *provided no data row leaves the
amount cell absent* (`None`, the uncaught `TypeError` of C2), the load
completes without failure, the store is exactly the converted forms of the
rows that pass `float`, the non-numeric row is among the skipped ones
(at least one row is reported skipped), and every other valid row of the
same file is loaded. -/
theorem c3_amended_nonnumeric_skipped (lines : List Str) (hdr : List Str)
    (rows : List (List Str))
    (hrecs : csvRecords (partitionLines lines).2 = hdr :: rows)
    (hnone : ∀ row ∈ rows,
      dget (mkDict hdr row) (some amountK) ≠ some .vNone)
    (hbad : ∃ row ∈ rows, ∃ s, dget (mkDict hdr row) (some amountK) =
      some (.vStr s) ∧ pyFloat? s = none) :
    (load_expenses (some lines)).aborted = false ∧
    (load_expenses (some lines)).expenses =
      (rows.filter (· ≠ [])).filterMap (rowConv hdr) ∧
    (load_expenses (some lines)).skipped =
      ((rows.filter (· ≠ [])).filter fun row => rowConv hdr row = none).length ∧
    1 ≤ (load_expenses (some lines)).skipped := by
  have hrun := runRows_no_abort hdr (rows.filter (· ≠ [])) (by
    intro row hrow habort
    rw [processRow_abort_iff] at habort
    exact hnone row (List.mem_of_mem_filter hrow) habort)
  have hab : (load_expenses (some lines)).aborted = false := by
    show (loadFromLines lines).aborted = false
    unfold loadFromLines
    simp only [hrecs, hrun]
  have hex : (load_expenses (some lines)).expenses =
      (rows.filter (· ≠ [])).filterMap (rowConv hdr) := by
    show (loadFromLines lines).expenses = _
    unfold loadFromLines
    simp only [hrecs, hrun]
  have hsk : (load_expenses (some lines)).skipped =
      ((rows.filter (· ≠ [])).filter fun row => rowConv hdr row = none).length := by
    show (loadFromLines lines).skipped = _
    unfold loadFromLines
    simp only [hrecs, hrun]
  refine ⟨hab, hex, hsk, ?_⟩
  obtain ⟨row, hrow, s, hs, hps⟩ := hbad
  have hconv : rowConv hdr row = none := by
    unfold rowConv processRow
    simp [hs, hps]
  have hne : row ≠ [] := by
    intro he
    rw [he] at hs
    exact mkDict_nil_no_vstr hdr amountK s hs
  have hmem : row ∈ (rows.filter (· ≠ [])).filter
      fun row => rowConv hdr row = none := by
    rw [List.mem_filter]
    exact ⟨List.mem_filter.2 ⟨hrow, by simp [hne]⟩, by simp [hconv]⟩
  rw [hsk]
  have := List.ne_nil_of_mem hmem
  have hlen := List.length_pos.2 this
  omega

def c3wFile : List Str :=
  [toStr "date,category,amount,description",
   toStr "a,b,xyz,d",
   toStr "2024-01-02,Fuel,5,gas"]

theorem c3_amended_nonnumeric_skipped_witness :
    csvRecords (partitionLines c3wFile).2 =
      headerFields ::
        [[toStr "a", toStr "b", toStr "xyz", toStr "d"],
         [toStr "2024-01-02", toStr "Fuel", toStr "5", toStr "gas"]] ∧
    (load_expenses (some c3wFile)).aborted = false ∧
    (load_expenses (some c3wFile)).expenses =
      [stdToDict ⟨toStr "2024-01-02", toStr "Fuel", .fin ⟨5, 0⟩, toStr "gas"⟩] ∧
    (load_expenses (some c3wFile)).skipped = 1 := by
  have h := c3_amended_nonnumeric_skipped c3wFile headerFields
    [[toStr "a", toStr "b", toStr "xyz", toStr "d"],
     [toStr "2024-01-02", toStr "Fuel", toStr "5", toStr "gas"]]
    (by decide)
    (by decide)
    ⟨[toStr "a", toStr "b", toStr "xyz", toStr "d"], by decide,
      toStr "xyz", by decide, by decide⟩
  exact ⟨by decide, h.1, by rw [h.2.1]; decide, by rw [h.2.2.1]; decide⟩

/-! ### C1, step 1: decimal digit strings round-trip -/

/-- Value of a little-endian digit list. -/
def valLE : List Nat → Nat
  | [] => 0
  | d :: t => d + 10 * valLE t

theorem digitsAux_val (f n : Nat) (h : n ≤ f) : valLE (digitsAux f n) = n := by
  induction f generalizing n with
  | zero =>
    interval_cases n
    rfl
  | succ f ih =>
    by_cases hz : n = 0
    · rw [digitsAux, if_pos hz, hz]
      rfl
    · rw [digitsAux, if_neg hz, valLE,
        ih (n / 10) (by
          have hlt : n / 10 < n := Nat.div_lt_self (Nat.pos_of_ne_zero hz) (by omega)
          omega)]
      omega

theorem digitsAux_lt (f n : Nat) : ∀ d ∈ digitsAux f n, d < 10 := by
  induction f generalizing n with
  | zero => simp [digitsAux]
  | succ f ih =>
    by_cases hz : n = 0
    · simp [digitsAux, hz]
    · intro d hd
      rw [digitsAux, if_neg hz] at hd
      rcases List.mem_cons.1 hd with rfl | hd
      · omega
      · exact ih _ _ hd

theorem dval_digitChar10 (d : Nat) (h : d < 10) : dval (digitChar10 d) = d := by
  interval_cases d <;> decide

theorem digitsVal_rev_map (L : List Nat) (hL : ∀ d ∈ L, d < 10) :
    ∀ A : Nat,
      ((L.map digitChar10).reverse).foldl (fun a c => 10 * a + dval c) A =
        A * 10 ^ L.length + valLE L := by
  induction L with
  | nil => intro A; simp [valLE]
  | cons d t ih =>
    intro A
    have hd : d < 10 := hL d (List.mem_cons_self _ _)
    have ht : ∀ x ∈ t, x < 10 := fun x hx => hL x (List.mem_cons_of_mem _ hx)
    rw [List.map_cons, List.reverse_cons, List.foldl_append, ih ht]
    simp only [List.foldl_cons, List.foldl_nil, dval_digitChar10 d hd, valLE,
      List.length_cons]
    ring

theorem digitsVal_natDigits (n : Nat) : digitsVal (natDigits n) = n := by
  unfold natDigits
  by_cases h : n = 0
  · subst h; decide
  · rw [if_neg h]
    unfold digitsVal
    rw [digitsVal_rev_map _ (digitsAux_lt n n) 0, digitsAux_val n n le_rfl]
    ring

/-- Every character a `natDigits` rendering contains, with the properties
the later parsing lemmas need. -/
def plainDigit (c : Char) : Prop :=
  c.isDigit = true ∧ lowerC c = c ∧ isWS c = false ∧ isBreakC c = false ∧
    c ≠ '_' ∧ c ≠ '-' ∧ c ≠ '+' ∧ c ≠ '.' ∧ c ≠ 'e' ∧ c ≠ 'E' ∧ c ≠ ',' ∧
    c ≠ '"' ∧ c ≠ '\x00' ∧ c ≠ 'i' ∧ c ≠ 'n' ∧ c ≠ '#'

instance (c : Char) : Decidable (plainDigit c) := by
  unfold plainDigit; infer_instance

theorem plainDigit_digitChar10 (d : Nat) (h : d < 10) :
    plainDigit (digitChar10 d) := by
  interval_cases d <;> decide

theorem natDigits_plain (n : Nat) : ∀ c ∈ natDigits n, plainDigit c := by
  unfold natDigits
  by_cases h : n = 0
  · subst h
    intro c hc
    simp at hc
    subst hc
    exact plainDigit_digitChar10 0 (by omega)
  · rw [if_neg h]
    intro c hc
    rw [List.mem_reverse, List.mem_map] at hc
    obtain ⟨d, hd, rfl⟩ := hc
    exact plainDigit_digitChar10 d (digitsAux_lt n n d hd)

theorem natDigits_ne_nil (n : Nat) : natDigits n ≠ [] := by
  unfold natDigits
  by_cases h : n = 0
  · subst h; decide
  · rw [if_neg h]
    intro he
    have : digitsAux n n = [] := by
      have := congrArg List.length he
      simpa using this
    have hv := digitsAux_val n n le_rfl
    rw [this] at hv
    exact h (by simpa [valLE] using hv.symm)

/-! ### C1, step 2: string-level helper lemmas -/

theorem dropWhile_eq_self_of_none {p : Char → Bool} (s : Str)
    (h : ∀ c ∈ s, p c = false) : s.dropWhile p = s := by
  cases s with
  | nil => rfl
  | cons c t =>
    rw [List.dropWhile_cons, h c (List.mem_cons_self _ _)]
    simp

theorem stripWS_eq_self (s : Str) (h : ∀ c ∈ s, isWS c = false) :
    stripWS s = s := by
  unfold stripWS
  rw [dropWhile_eq_self_of_none s h,
    dropWhile_eq_self_of_none s.reverse (fun c hc => h c (List.mem_reverse.1 hc)),
    List.reverse_reverse]

theorem underscoresFine_of_no_underscore (s : Str) (h : ∀ c ∈ s, c ≠ '_') :
    ∀ p, underscoresFine p s = true := by
  induction s with
  | nil => intro p; rfl
  | cons c t ih =>
    intro p
    unfold underscoresFine
    rw [if_neg (h c (List.mem_cons_self _ _))]
    exact ih (fun x hx => h x (List.mem_cons_of_mem _ hx)) _

theorem filter_no_underscore (s : Str) (h : ∀ c ∈ s, c ≠ '_') :
    s.filter (· ≠ '_') = s :=
  List.filter_eq_self.2 (fun c hc => by simpa using h c hc)

theorem takeWhile_append_of_all {p : Char → Bool} (xs ys : Str)
    (h : ∀ c ∈ xs, p c = true) :
    (xs ++ ys).takeWhile p = xs ++ ys.takeWhile p := by
  induction xs with
  | nil => rfl
  | cons c t ih =>
    rw [List.cons_append, List.takeWhile_cons, h c (List.mem_cons_self _ _)]
    simp only [if_true, List.cons_append]
    rw [ih (fun x hx => h x (List.mem_cons_of_mem _ hx))]

theorem dropWhile_append_of_all {p : Char → Bool} (xs ys : Str)
    (h : ∀ c ∈ xs, p c = true) :
    (xs ++ ys).dropWhile p = ys.dropWhile p := by
  induction xs with
  | nil => rfl
  | cons c t ih =>
    rw [List.cons_append, List.dropWhile_cons, h c (List.mem_cons_self _ _)]
    simp only [if_true]
    exact ih (fun x hx => h x (List.mem_cons_of_mem _ hx))

theorem takeDigits_digits_append (xs ys : Str)
    (hx : ∀ c ∈ xs, c.isDigit = true)
    (hy : ∀ c, ys.head? = some c → c.isDigit = false) :
    takeDigits (xs ++ ys) = (xs, ys) := by
  unfold takeDigits
  rw [takeWhile_append_of_all xs ys hx, dropWhile_append_of_all xs ys hx]
  cases ys with
  | nil => simp
  | cons c t =>
    have := hy c rfl
    rw [List.takeWhile_cons, List.dropWhile_cons]
    simp [this]

theorem takeWhile_app_nil {p : Char → Bool} (xs : Str)
    (h : ∀ c ∈ xs, p c = true) : xs.takeWhile p = xs := by
  have := takeWhile_append_of_all xs [] h
  simpa using this

theorem dropWhile_app_nil {p : Char → Bool} (xs : Str)
    (h : ∀ c ∈ xs, p c = true) : xs.dropWhile p = [] := by
  have := dropWhile_append_of_all xs [] h
  simpa using this

/-- A string with a non-lowercase-keyword head is never case-equal to one
of the `inf`/`infinity`/`nan` keywords. -/
theorem lowerEq_false_of_head (c : Char) (t kw : Str) (hne : lowerC c ≠ kw.head?.getD ' ') :
    lowerEq (c :: t) kw = false := by
  unfold lowerEq
  cases kw with
  | nil => simp
  | cons k kt =>
    simp only [List.map_cons, List.head?] at hne ⊢
    simp only [Option.getD] at hne
    rw [decide_eq_false_iff_not]
    intro he
    exact hne (by injection he)

/-! ### C1, step 3: `float(str(x)) = x` -/

/-- The exponent tail of a `numStr` rendering. -/
def expTail (e : Nat) : Str := if e = 0 then [] else 'e' :: '-' :: natDigits e

theorem numStr_fin_eq (d : Dec10) :
    numStr (.fin d) =
      (if d.num < 0 then ['-'] else []) ++ natDigits d.num.natAbs ++ expTail d.exp := rfl

theorem expTail_chars (e : Nat) :
    ∀ c ∈ expTail e, c ≠ '_' ∧ isWS c = false ∧ isBreakC c = false ∧
      c ≠ ',' ∧ c ≠ '"' ∧ c ≠ '\x00' := by
  unfold expTail
  by_cases h : e = 0
  · simp [h]
  · rw [if_neg h]
    intro c hc
    rcases List.mem_cons.1 hc with rfl | hc
    · decide
    rcases List.mem_cons.1 hc with rfl | hc
    · decide
    · obtain ⟨h1, h2, h3, h4, h5, h6, h7, h8, h9, h10, h11, h12, h13, h14, h15, h16⟩ :=
        natDigits_plain e c hc
      exact ⟨h5, h3, h4, h11, h12, h13⟩

/-- Characters of a `numStr` rendering: no underscores, no whitespace, no
line breaks, no delimiter/quote/NUL — so it survives stripping, the
underscore check, CSV emission and the budget-line split unchanged. -/
theorem numStr_chars (p : PyNum) :
    ∀ c ∈ numStr p, c ≠ '_' ∧ isWS c = false ∧ isBreakC c = false ∧
      c ≠ ',' ∧ c ≠ '"' ∧ c ≠ '\x00' := by
  cases p with
  | nan => decide
  | pinf => decide
  | ninf => decide
  | fin d =>
    rw [numStr_fin_eq]
    intro c hc
    rcases List.mem_append.1 hc with hc | hc
    · rcases List.mem_append.1 hc with hc | hc
      · by_cases hn : d.num < 0
        · rw [if_pos hn] at hc
          simp at hc
          subst hc
          decide
        · rw [if_neg hn] at hc
          simp at hc
      · obtain ⟨h1, h2, h3, h4, h5, h6, h7, h8, h9, h10, h11, h12, h13, h14, h15, h16⟩ :=
          natDigits_plain d.num.natAbs c hc
        exact ⟨h5, h3, h4, h11, h12, h13⟩
    · exact expTail_chars d.exp c hc

theorem parseSign_cons_of_plain (c : Char) (t : Str) (h1 : c ≠ '-')
    (h2 : c ≠ '+') : parseSign (c :: t) = (false, c :: t) := by
  simp only [parseSign]
  rw [if_neg h1, if_neg h2]

/-- The mantissa-exponent pair printed by `numStr` reassembles to exactly
the same `Dec10`. -/
theorem mkFin_natDigits (d : Dec10) :
    mkFin (decide (d.num < 0)) (natDigits d.num.natAbs) [] (-(d.exp : Int)) =
      .fin d := by
  obtain ⟨num, exp⟩ := d
  simp only [mkFin, digitsVal_natDigits, List.length_nil, pow_zero, Nat.mul_one,
    Nat.cast_zero]
  have hdv : digitsVal ([] : Str) = 0 := rfl
  rw [hdv]
  simp only [Nat.add_zero, sub_zero]
  have hMi : (if decide (num < 0) = true then -(num.natAbs : Int)
      else (num.natAbs : Int)) = num := by
    by_cases hn : num < 0
    · rw [if_pos (by simpa using hn), Int.ofNat_natAbs_of_nonpos (le_of_lt hn)]
      ring
    · rw [if_neg (by simpa using hn)]
      exact Int.natAbs_of_nonneg (by omega)
  simp only [hMi]
  by_cases he : exp = 0
  · subst he
    norm_num
  · rw [if_neg (by omega)]
    simp only [neg_neg, Int.toNat_natCast]

theorem parse_numStr_fin (d : Dec10) :
    parseFloatNoU (numStr (.fin d)) = some (.fin d) := by
  have hplainN := natDigits_plain d.num.natAbs
  obtain ⟨c0, N', hN⟩ := List.exists_cons_of_ne_nil (natDigits_ne_nil d.num.natAbs)
  have hc0 : plainDigit c0 := by
    rw [hN] at hplainN
    exact hplainN c0 (List.mem_cons_self _ _)
  obtain ⟨p1, p2, p3, p4, p5, p6, p7, p8, p9, p10, p11, p12, p13, p14, p15, p16⟩ := hc0
  have hstrip : stripWS (numStr (.fin d)) = numStr (.fin d) :=
    stripWS_eq_self _ (fun c hc => (numStr_chars _ c hc).2.1)
  have hEhead : ∀ c, (expTail d.exp).head? = some c → c.isDigit = false := by
    intro c hc
    unfold expTail at hc
    by_cases he : d.exp = 0
    · rw [if_pos he] at hc
      simp at hc
    · rw [if_neg he] at hc
      simp only [List.head?] at hc
      injection hc with hc
      subst hc
      decide
  have htakeN : takeDigits (natDigits d.num.natAbs ++ expTail d.exp) =
      (natDigits d.num.natAbs, expTail d.exp) :=
    takeDigits_digits_append _ _ (fun c hc => (natDigits_plain _ c hc).1) hEhead
  have hkwinf :
      lowerEq (natDigits d.num.natAbs ++ expTail d.exp) (toStr "inf") = false := by
    rw [hN, List.cons_append]
    exact lowerEq_false_of_head _ _ _ (by rw [p2]; simpa using p14)
  have hkwinfy :
      lowerEq (natDigits d.num.natAbs ++ expTail d.exp) (toStr "infinity") = false := by
    rw [hN, List.cons_append]
    exact lowerEq_false_of_head _ _ _ (by rw [p2]; simpa using p14)
  have hkwnan :
      lowerEq (natDigits d.num.natAbs ++ expTail d.exp) (toStr "nan") = false := by
    rw [hN, List.cons_append]
    exact lowerEq_false_of_head _ _ _ (by rw [p2]; simpa using p15)
  have hsign : parseSign (numStr (.fin d)) =
      (decide (d.num < 0), natDigits d.num.natAbs ++ expTail d.exp) := by
    rw [numStr_fin_eq]
    by_cases hn : d.num < 0
    · rw [if_pos hn]
      simp only [List.nil_append, List.cons_append, List.append_assoc]
      simp [parseSign, hn]
    · rw [if_neg hn]
      simp only [List.nil_append, List.append_assoc, hN, List.cons_append]
      rw [parseSign_cons_of_plain c0 _ p6 p7]
      simp [hn, ← List.cons_append, ← hN]
  have hNne : natDigits d.num.natAbs ≠ [] := natDigits_ne_nil _
  have hnilne : numStr (.fin d) ≠ [] := by
    rw [numStr_fin_eq]
    intro hcon
    rcases List.append_eq_nil.1 hcon with ⟨h1, _⟩
    rcases List.append_eq_nil.1 h1 with ⟨_, h2⟩
    exact hNne h2
  have hfrac : splitFrac (expTail d.exp) = ([], expTail d.exp) := by
    unfold expTail splitFrac
    by_cases he : d.exp = 0
    · simp [he]
    · rw [if_neg he]
      simp
  have hmant : ¬ ((natDigits d.num.natAbs).isEmpty = true ∧
      (([] : Str)).isEmpty = true) := by
    intro hcon
    exact hNne (List.isEmpty_iff.1 hcon.1)
  unfold parseFloatNoU
  simp only [hstrip]
  rw [if_neg hnilne]
  simp only [hsign, hkwinf, hkwinfy, hkwnan, Bool.false_eq_true, or_self,
    if_false, htakeN, hfrac]
  rw [if_neg hmant]
  by_cases he : d.exp = 0
  · have hE : expTail d.exp = [] := by simp [expTail, he]
    rw [hE]
    have hmk := mkFin_natDigits d
    rw [he] at hmk
    simp only [Nat.cast_zero, neg_zero] at hmk
    show some (mkFin (decide (d.num < 0)) (natDigits d.num.natAbs) [] 0) =
      some (.fin d)
    rw [hmk]
  · have hE : expTail d.exp = 'e' :: '-' :: natDigits d.exp := by
      simp [expTail, he]
    rw [hE]
    simp only []
    rw [if_pos (Or.inl trivial)]
    have hsignE : parseSign ('-' :: natDigits d.exp) = (true, natDigits d.exp) := by
      simp [parseSign]
    rw [hsignE]
    have htakeE : takeDigits (natDigits d.exp) = (natDigits d.exp, []) := by
      unfold takeDigits
      rw [takeWhile_app_nil _ (fun c hc => (natDigits_plain _ c hc).1),
        dropWhile_app_nil _ (fun c hc => (natDigits_plain _ c hc).1)]
    rw [htakeE]
    rw [if_neg (by
      intro hcon
      rcases hcon with hcon | hcon
      · exact natDigits_ne_nil d.exp (List.isEmpty_iff.1 hcon)
      · simp at hcon)]
    simp only [digitsVal_natDigits, if_true]
    rw [mkFin_natDigits d]

/-- The model of `float(str(x)) = x`: Python's float-to-string rendering
parses back to the same value. -/
theorem pyFloat_numStr (p : PyNum) : pyFloat? (numStr p) = some p := by
  have hchars := numStr_chars p
  have hund : underscoresFine none (numStr p) = true :=
    underscoresFine_of_no_underscore _ (fun c hc => (hchars c hc).1) none
  have hfil : (numStr p).filter (· ≠ '_') = numStr p :=
    filter_no_underscore _ (fun c hc => (hchars c hc).1)
  unfold pyFloat?
  rw [if_pos hund, hfil]
  cases p with
  | fin d => exact parse_numStr_fin d
  | pinf => decide
  | ninf => decide
  | nan => decide

/-! ### C1, step 4: the CSV writer's lines parse back to their cells -/

theorem csvStep_inField_no_comma (cs : Str) (h : ∀ c ∈ cs, c ≠ ',') :
    ∀ acc cur, cs.foldl csvStep (.inField acc cur) = .inField acc (cur ++ cs) := by
  induction cs with
  | nil => intro acc cur; simp
  | cons c t ih =>
    intro acc cur
    have hc : c ≠ ',' := h c (List.mem_cons_self _ _)
    rw [List.foldl_cons]
    show List.foldl csvStep (csvStep (.inField acc cur) c) t = _
    rw [show csvStep (.inField acc cur) c = .inField acc (cur ++ [c]) by
      simp [csvStep, hc]]
    rw [ih (fun x hx => h x (List.mem_cons_of_mem _ hx)) acc (cur ++ [c])]
    simp

theorem csvStep_inQuoted_escQ (cs : Str) :
    ∀ acc cur, (escQ cs).foldl csvStep (.inQuoted acc cur) =
      .inQuoted acc (cur ++ cs) := by
  induction cs with
  | nil => intro acc cur; simp [escQ]
  | cons c t ih =>
    intro acc cur
    by_cases hc : c = '"'
    · subst hc
      show List.foldl csvStep _ ('"' :: '"' :: escQ t) = _
      simp only [List.foldl_cons]
      rw [show csvStep (CsvSt.inQuoted acc cur) '"' = .quotedQuote acc cur by
        simp [csvStep]]
      rw [show csvStep (CsvSt.quotedQuote acc cur) '"' =
          .inQuoted acc (cur ++ ['"']) by simp [csvStep]]
      rw [ih acc (cur ++ ['"'])]
      simp
    · show List.foldl csvStep _ (if c = '"' then '"' :: '"' :: escQ t
        else c :: escQ t) = _
      rw [if_neg hc]
      simp only [List.foldl_cons]
      rw [show csvStep (CsvSt.inQuoted acc cur) c = .inQuoted acc (cur ++ [c]) by
        simp [csvStep, hc]]
      rw [ih acc (cur ++ [c])]
      simp

/-- Does `QUOTE_MINIMAL` quote this (single-line) cell? -/
def needsQ (f : Str) : Bool := f.any fun c => c = ',' ∨ c = '"'

theorem csvStep_field (f : Str) (acc : List Str) :
    (quoteF f).foldl csvStep (.startField acc) =
      (if needsQ f then .quotedQuote acc f
       else if f = [] then .startField acc else .inField acc f) := by
  by_cases hq : needsQ f
  · rw [if_pos hq]
    unfold quoteF
    rw [if_pos (by simpa [needsQ] using hq)]
    show List.foldl csvStep _ ('"' :: (escQ f ++ ['"'])) = _
    simp only [List.foldl_cons]
    rw [show csvStep (CsvSt.startField acc) '"' = .inQuoted acc [] by
      simp [csvStep, stepOpen]]
    rw [List.foldl_append, csvStep_inQuoted_escQ f acc []]
    simp [csvStep]
  · rw [if_neg hq]
    unfold quoteF
    rw [if_neg (by simpa [needsQ] using hq)]
    cases f with
    | nil => simp
    | cons c t =>
      rw [if_neg (by simp)]
      have hall : ∀ x ∈ c :: t, ¬ (x = ',' ∨ x = '"') := by
        intro x hx
        simp only [needsQ, List.any_eq_true, not_exists] at hq
        push_neg at hq
        have := hq x hx
        simpa using this
      have hc : ¬ (c = ',' ∨ c = '"') := hall c (List.mem_cons_self _ _)
      simp only [List.foldl_cons]
      rw [show csvStep (CsvSt.startField acc) c = .inField acc [c] by
        push_neg at hc
        simp [csvStep, stepOpen, hc.1, hc.2]]
      rw [csvStep_inField_no_comma t
        (fun x hx => fun h => hall x (List.mem_cons_of_mem _ hx) (Or.inl h)) acc [c]]
      simp

theorem csvStep_field_comma (f : Str) (acc : List Str) (rest : Str) :
    (quoteF f ++ ',' :: rest).foldl csvStep (.startField acc) =
      rest.foldl csvStep (.startField (acc ++ [f])) := by
  rw [List.foldl_append, csvStep_field]
  by_cases hq : needsQ f
  · rw [if_pos hq]
    simp [csvStep]
  · rw [if_neg hq]
    by_cases hf : f = []
    · subst hf
      simp [csvStep, stepOpen]
    · rw [if_neg hf]
      simp [csvStep]

theorem csvLineEnd_fields (fs : List Str) (hfs : fs ≠ []) (acc : List Str) :
    csvLineEnd ((lineOfFields fs).foldl csvStep (.startField acc)) =
      (some (acc ++ fs), .startRec) := by
  induction fs generalizing acc with
  | nil => exact absurd rfl hfs
  | cons f fs ih =>
    cases fs with
    | nil =>
      show csvLineEnd ((quoteF f).foldl csvStep (.startField acc)) = _
      rw [csvStep_field]
      by_cases hq : needsQ f
      · rw [if_pos hq]
        simp [csvLineEnd]
      · rw [if_neg hq]
        by_cases hf : f = []
        · subst hf
          simp [csvLineEnd]
        · rw [if_neg hf]
          simp [csvLineEnd]
    | cons g gs =>
      show csvLineEnd ((quoteF f ++ ',' :: lineOfFields (g :: gs)).foldl
        csvStep (.startField acc)) = _
      rw [csvStep_field_comma f acc (lineOfFields (g :: gs))]
      rw [ih (by simp) (acc ++ [f])]
      simp

/-- A line written for at least two cells is non-empty and parses from the
fresh-record state to exactly its cells, leaving the machine ready for the
next record. -/
theorem csvLine_parses (fs : List Str) (h2 : 2 ≤ fs.length) :
    csvLineEnd ((lineOfFields fs).foldl csvStep .startRec) =
      (some fs, .startRec) := by
  have hne : lineOfFields fs ≠ [] := by
    cases fs with
    | nil => simp at h2
    | cons f fs =>
      cases fs with
      | nil => simp at h2
      | cons g gs =>
        show quoteF f ++ ',' :: lineOfFields (g :: gs) ≠ []
        simp
  obtain ⟨c, rest, hl⟩ := List.exists_cons_of_ne_nil hne
  have hstep : (lineOfFields fs).foldl csvStep .startRec =
      (lineOfFields fs).foldl csvStep (.startField []) := by
    rw [hl]
    simp only [List.foldl_cons]
    rfl
  rw [hstep, csvLineEnd_fields fs (by cases fs <;> simp_all) []]
  simp

/-- The reader, fed exactly the writer's lines, returns exactly the
written records. -/
theorem csvRecords_writer (fss : List (List Str))
    (h : ∀ fs ∈ fss, 2 ≤ fs.length) :
    csvRecords (fss.map lineOfFields) = fss := by
  unfold csvRecords
  induction fss with
  | nil => rfl
  | cons fs fss ih =>
    rw [List.map_cons]
    show csvGo .startRec (lineOfFields fs :: fss.map lineOfFields) = fs :: fss
    rw [csvGo]
    rw [csvLine_parses fs (h fs (List.mem_cons_self _ _))]
    simp only []
    rw [ih (fun x hx => h x (List.mem_cons_of_mem _ hx))]

/-! ### C1, step 5: the budget marker line survives, data rows do not
collide with it -/

theorem takeWhile_before_comma (xs ys : Str) (h : ∀ c ∈ xs, c ≠ ',') :
    (xs ++ ',' :: ys).takeWhile (fun c => !(c = ',')) = xs := by
  rw [takeWhile_append_of_all xs _ (fun c hc => by simpa using h c hc)]
  simp

/-- A data row written for a record whose date cell is not exactly
`#BUDGET` never starts with the budget marker. -/
theorem marker_not_prefix_row (f rest : Str) (hf : f ≠ toStr "#BUDGET") :
    markerB (quoteF f ++ ',' :: rest) = false := by
  by_cases hq : needsQ f
  · unfold quoteF
    rw [if_pos (by simpa [needsQ] using hq)]
    rfl
  · unfold quoteF
    rw [if_neg (by simpa [needsQ] using hq)]
    unfold markerB
    rw [Bool.eq_false_iff]
    intro hcon
    rw [List.isPrefixOf_iff_prefix] at hcon
    obtain ⟨t, ht⟩ := hcon
    have hsplit : toStr "#BUDGET," = toStr "#BUDGET" ++ [','] := by decide
    rw [hsplit, List.append_assoc] at ht
    have h1 : (toStr "#BUDGET" ++ ',' :: t).takeWhile (fun c => !(c = ',')) =
        toStr "#BUDGET" := takeWhile_before_comma _ _ (by decide)
    have h2 : (f ++ ',' :: rest).takeWhile (fun c => !(c = ',')) = f := by
      refine takeWhile_before_comma _ _ ?_
      intro c hc hceq
      subst hceq
      simp only [needsQ, List.any_eq_true] at hq
      exact hq ⟨',', hc, by simp⟩
    rw [show ([','] ++ t) = ',' :: t by rfl] at ht
    rw [← ht, h1] at h2
    exact hf h2.symm

theorem markerB_markerLine (b : PyNum) : markerB (markerLine b) = true := by
  unfold markerB markerLine
  exact List.isPrefixOf_iff_prefix.2 (List.prefix_append _ _)

theorem splitComma_no_comma (s : Str) (h : ∀ c ∈ s, c ≠ ',') :
    splitComma s = [s] := by
  induction s with
  | nil => rfl
  | cons c t ih =>
    unfold splitComma
    rw [if_neg (h c (List.mem_cons_self _ _))]
    rw [ih (fun x hx => h x (List.mem_cons_of_mem _ hx))]

theorem splitComma_append (xs ys : Str) (h : ∀ c ∈ xs, c ≠ ',') :
    splitComma (xs ++ ',' :: ys) = xs :: splitComma ys := by
  induction xs with
  | nil =>
    show splitComma (',' :: ys) = [] :: splitComma ys
    conv_lhs => rw [splitComma]
    rw [if_pos rfl]
  | cons c t ih =>
    show splitComma (c :: (t ++ ',' :: ys)) = _
    conv_lhs => rw [splitComma]
    rw [if_neg (h c (List.mem_cons_self _ _))]
    rw [ih (fun x hx => h x (List.mem_cons_of_mem _ hx))]

/-- Parsing the saved `#BUDGET,<str(b)>` line recovers exactly `b`. -/
theorem parseBudgetLine_markerLine (b : PyNum) :
    parseBudgetLine (markerLine b) = b := by
  have hsplit : markerLine b = toStr "#BUDGET" ++ ',' :: numStr b := by
    unfold markerLine
    rw [show toStr "#BUDGET," = toStr "#BUDGET" ++ [','] by decide]
    simp
  unfold parseBudgetLine
  rw [hsplit, splitComma_append _ _ (by decide),
    splitComma_no_comma _ (fun c hc => (numStr_chars b c hc).2.2.2.1)]
  show (match pyFloat? (stripWS (numStr b)) with
    | some n => n
    | none => .fin ⟨0, 0⟩) = b
  rw [stripWS_eq_self _ (fun c hc => (numStr_chars b c hc).2.1), pyFloat_numStr]

/-! ### C1, step 6: per-record processing and the round-trip theorems -/

theorem mkDict_std (a b c d : Str) :
    mkDict headerFields [a, b, c, d] =
      [(some dateK, .vStr a), (some catK, .vStr b), (some amountK, .vStr c),
        (some descK, .vStr d)] := rfl

theorem processRow_std (r : StdRecord) :
    processRow (mkDict headerFields (toFields r)) = .app (stdToDict r) := by
  show processRow (mkDict headerFields
    [r.date, r.category, numStr r.amount, r.description]) = _
  rw [mkDict_std]
  unfold processRow
  have hget : dget
      [(some dateK, .vStr r.date), (some catK, .vStr r.category),
        (some amountK, .vStr (numStr r.amount)),
        (some descK, .vStr r.description)] (some amountK) =
      some (.vStr (numStr r.amount)) := rfl
  rw [hget]
  simp only [pyFloat_numStr]
  rfl

theorem runRows_std (rs : List StdRecord) :
    runRows headerFields (rs.map toFields) = (rs.map stdToDict, 0, false) := by
  induction rs with
  | nil => rfl
  | cons r rest ih =>
    rw [List.map_cons, runRows, processRow_std, ih]
    rfl

/-- The writer's output for a record row, exposed as marker-collision
analysis needs it. -/
theorem rowLine_eq (r : StdRecord) :
    lineOfFields (toFields r) =
      quoteF r.date ++ ',' ::
        lineOfFields [r.category, numStr r.amount, r.description] := rfl

def saveRows (rs : List StdRecord) : List Str :=
  rs.map fun r => lineOfFields (toFields r)

theorem save_expenses_eq (rs : List StdRecord) (b : PyNum) (hne : rs ≠ []) :
    save_expenses rs b =
      lineOfFields headerFields :: (saveRows rs ++ [markerLine b]) := by
  unfold save_expenses saveRows
  rw [if_neg hne]
  simp [toFields]

theorem partition_save (rs : List StdRecord) (b : PyNum) (hne : rs ≠ [])
    (hdate : ∀ r ∈ rs, r.date ≠ toStr "#BUDGET") :
    partitionLines (save_expenses rs b) =
      (some (markerLine b), lineOfFields headerFields :: saveRows rs) := by
  have hrow : ∀ l ∈ saveRows rs, markerB l = false := by
    intro l hl
    obtain ⟨r, hr, rfl⟩ := List.mem_map.1 hl
    rw [rowLine_eq]
    exact marker_not_prefix_row _ _ (hdate r hr)
  rw [save_expenses_eq rs b hne, partitionLines_eq]
  have hhdr : markerB (lineOfFields headerFields) = false := by decide
  rw [Prod.mk.injEq]
  constructor
  · rw [List.filter_cons_of_neg (by simp [hhdr]), List.filter_append]
    rw [List.filter_eq_nil_iff.2 (by intro l hl; simp [hrow l hl])]
    simp [markerB_markerLine]
  · rw [List.filter_cons_of_pos (by simp [hhdr]), List.filter_append]
    rw [List.filter_eq_self.2 (by intro l hl; simp [hrow l hl])]
    simp [markerB_markerLine]

/-- **C1 (amended).** Saving any non-empty sequence of standard records
(single-line, NUL-free text fields — the only kind the program can hold —
and any float amounts) together with any budget, then loading the file
back, reproduces exactly the same records, in order, with the same field
values, and the same budget — *provided no record's date field is the
literal text `#BUDGET`*, which the claim as stated does not exclude. -/
theorem c1_roundtrip_amended (rs : List StdRecord) (b : PyNum)
    (hne : rs ≠ [])
    (hclean : ∀ r ∈ rs, cleanF r.date ∧ cleanF r.category ∧ cleanF r.description)
    (hdate : ∀ r ∈ rs, r.date ≠ toStr "#BUDGET") :
    load_expenses (some (save_expenses rs b)) =
      ⟨rs.map stdToDict, b, 0, false, false⟩ := by
  show loadFromLines (save_expenses rs b) = _
  unfold loadFromLines
  rw [partition_save rs b hne hdate]
  simp only []
  have hcsv : csvRecords (lineOfFields headerFields :: saveRows rs) =
      headerFields :: rs.map toFields := by
    have : lineOfFields headerFields :: saveRows rs =
        (headerFields :: rs.map toFields).map lineOfFields := by
      simp [saveRows, List.map_map]
    rw [this]
    refine csvRecords_writer _ ?_
    intro fs hfs
    rcases List.mem_cons.1 hfs with rfl | hfs
    · decide
    · obtain ⟨r, _, rfl⟩ := List.mem_map.1 hfs
      simp [toFields]
  rw [hcsv]
  simp only []
  have hfil : (rs.map toFields).filter (· ≠ []) = rs.map toFields := by
    refine List.filter_eq_self.2 ?_
    intro fs hfs
    obtain ⟨r, _, rfl⟩ := List.mem_map.1 hfs
    simp [toFields]
  rw [hfil, runRows_std]
  simp only [parseBudgetLine_markerLine]

def c1wRec : StdRecord :=
  ⟨toStr "2024-03-01", toStr "Fo,od", .fin ⟨125, 1⟩, toStr "L\"unch"⟩

theorem c1_roundtrip_amended_witness :
    ([c1wRec] : List StdRecord) ≠ [] ∧
    (cleanF c1wRec.date ∧ cleanF c1wRec.category ∧ cleanF c1wRec.description) ∧
    c1wRec.date ≠ toStr "#BUDGET" ∧
    load_expenses (some (save_expenses [c1wRec] (.fin ⟨1000, 1⟩))) =
      ⟨[stdToDict c1wRec], .fin ⟨1000, 1⟩, 0, false, false⟩ :=
  ⟨by decide, by decide, by decide,
    c1_roundtrip_amended [c1wRec] (.fin ⟨1000, 1⟩) (by decide)
      (by
        intro r hr
        simp at hr
        subst hr
        exact ⟨by decide, by decide, by decide⟩)
      (by
        intro r hr
        simp at hr
        subst hr
        decide)⟩

def c1cxRec : StdRecord := ⟨toStr "#BUDGET", toStr "Food", .fin ⟨1, 0⟩, toStr "x"⟩

/-- **C1 (counterexample to the claim as stated).** A store holding one
record whose date field is the text `#BUDGET` (reachable: a hand-edited
file row `"#BUDGET",Food,1,x` loads it, since the quoted cell defeats the
marker test) saves to a row that *starts with* `#BUDGET,`; on reload the
partition step claims that row as a budget marker line, so the record
vanishes: the loaded sequence is empty rather than equal to the saved
one. -/
theorem c1_roundtrip_cx :
    (load_expenses (some (save_expenses [c1cxRec] (.fin ⟨5, 0⟩)))).expenses = [] ∧
    [c1cxRec].map stdToDict ≠ [] ∧
    (load_expenses (some (save_expenses [c1cxRec] (.fin ⟨5, 0⟩)))).budget =
      .fin ⟨5, 0⟩ := by
  refine ⟨by decide, by decide, by decide⟩

end ExpenseTracker
